import Mathlib

/-!
Verification of the DevDesk worker subsystem: the tabular normalizer
(`flattenObject`, `sanitizeForTabular`, `enforceTabularLimits`), the preview
chunk emitter (`emitPreviewChunks`) and the `WorkerManager` orchestrator
(`cancelAll`, `isCancelledError`, debounced `postMessage`), shallowly embedded
from the TypeScript source.
-/

/-- JSON-style values as handled by the workers: `null`, booleans, numbers,
strings, arrays and plain objects (association lists in insertion order). -/
inductive JValue where
  | vNull : JValue
  | vBool : Bool → JValue
  | vNum : Int → JValue
  | vStr : String → JValue
  | vArr : List JValue → JValue
  | vObj : List (String × JValue) → JValue
  deriving Repr, BEq

namespace DevDesk

open JValue

/-- JS test `value !== null && typeof value === 'object'`: true exactly for
plain objects and arrays (JS `typeof null` is `'object'` but the null guard
excludes it). -/
def isJsObjectLike : JValue → Bool
  | vObj _ => true
  | vArr _ => true
  | _ => false

/-- `JSON.stringify` escaping for the characters that matter here. -/
def jsonEscapeChar (c : Char) : String :=
  if c = '"' then "\\\"" else if c = '\\' then "\\\\" else String.singleton c

def jsonEscape (s : String) : String :=
  String.join (s.toList.map jsonEscapeChar)

mutual
/-- Model of `JSON.stringify` on the value forms the workers serialize. -/
def jsonStringify : JValue → String
  | vNull => "null"
  | vBool true => "true"
  | vBool false => "false"
  | vNum n => toString n
  | vStr s => "\"" ++ jsonEscape s ++ "\""
  | vArr xs => "[" ++ String.intercalate "," (jsonStringifyList xs) ++ "]"
  | vObj fs => "\x7b" ++ String.intercalate "," (jsonStringifyFields fs) ++ "\x7d"

def jsonStringifyList : List JValue → List String
  | [] => []
  | x :: xs => jsonStringify x :: jsonStringifyList xs

def jsonStringifyFields : List (String × JValue) → List String
  | [] => []
  | (k, v) :: fs =>
    ("\"" ++ jsonEscape k ++ "\":" ++ jsonStringify v) :: jsonStringifyFields fs
end

/-- JS object property write `result[k] = v`: if the key is present its value
is replaced in place (insertion order kept), otherwise the pair is appended. -/
def jsInsert (fields : List (String × JValue)) (k : String) (v : JValue) :
    List (String × JValue) :=
  match fields with
  | [] => [(k, v)]
  | (k', v') :: rest =>
    if k' = k then (k, v) :: rest else (k', v') :: jsInsert rest k v

/-- `Object.entries` / `for k in` enumeration: objects yield their fields in
insertion order; arrays yield index-keyed entries; primitives yield nothing. -/
def jsEntries : JValue → List (String × JValue)
  | vObj fs => fs
  | vArr xs => (List.range xs.length).zip xs |>.map fun p => (toString p.1, p.2)
  | _ => []

mutual
/-- Size of the object structure still to traverse (arrays are serialized, not
recursed into, so they count as leaves); used only for termination. -/
def jValSize : JValue → Nat
  | vObj fs => 1 + jFieldsSize fs
  | _ => 1

def jFieldsSize : List (String × JValue) → Nat
  | [] => 0
  | (_, v) :: fs => 1 + jValSize v + jFieldsSize fs
end

/-- Total object weight of the pending stack of `flattenObject`. -/
def stackWeight : List (String × List (String × JValue)) → Nat
  | [] => 0
  | (_, es) :: rest => jFieldsSize es + stackWeight rest

/-- The explicit-stack loop of `flattenObject`.  Each frame is a pending
`{current, prefix}` pair, with the entries of `current` still to process; a
nested plain object is deferred onto the stack (the JS code pushes it and pops
last-in-first-out, i.e. right after the current frame's remaining entries),
an array value is serialized with `JSON.stringify`, and any other value is
written through to `result` unchanged. -/
def flattenLoop (stack : List (String × List (String × JValue)))
    (result : List (String × JValue)) : List (String × JValue) :=
  match stack with
  | [] => result
  | (_, []) :: rest => flattenLoop rest result
  | (pfx, (k, v) :: es) :: rest =>
    let newKey := if pfx = "" then k else pfx ++ "." ++ k
    match v with
    | vObj fs => flattenLoop ((pfx, es) :: (newKey, fs) :: rest) result
    | vArr xs =>
      flattenLoop ((pfx, es) :: rest) (jsInsert result newKey (vStr (jsonStringify (vArr xs))))
    | other => flattenLoop ((pfx, es) :: rest) (jsInsert result newKey other)
termination_by (stackWeight stack, stack.length)
decreasing_by
  all_goals simp_wf
  all_goals simp [Prod.lex_iff, stackWeight, jFieldsSize, jValSize]
  all_goals omega

/-- `flattenObject(obj)`: returns non-objects (and `null`) unchanged, and
otherwise runs the explicit-stack depth-first flattening over the object's
entries. -/
def flattenObject : JValue → JValue
  | vNull => vNull
  | vObj fs => vObj (flattenLoop [("", fs)] [])
  | vArr xs => vObj (flattenLoop [("", jsEntries (vArr xs))] [])
  | other => other

-- Limit policy constants shared by both conversion workers.
def MAX_ROWS : Nat := 100000
def MAX_COLUMNS : Nat := 500
def MAX_CELL_CHARS : Nat := 200000
def FIRST_PREVIEW_CHUNK : Nat := 100
def PREVIEW_CHUNK_SIZE : Nat := 200
def PREVIEW_LIMIT : Nat := 1000

/-- `columnSet.add(key)` on the accumulated distinct-column set (modelled as a
duplicate-free list in first-seen order). -/
def addColumn (s : List String) (k : String) : List String :=
  if k ∈ s then s else s ++ [k]

/-- Inner loop of `enforceTabularLimits` over one row's entries: add the key to
the column set and fail once the set exceeds `MAX_COLUMNS`; fail on any string
value longer than `MAX_CELL_CHARS`. -/
def enforceEntries (entries : List (String × JValue)) (columnSet : List String)
    (context : String) : Except String (List String) :=
  match entries with
  | [] => .ok columnSet
  | (k, v) :: rest =>
    let cs := addColumn columnSet k
    if cs.length > MAX_COLUMNS then
      .error (context ++ ": dataset exceeds 500 columns")
    else
      match v with
      | vStr s =>
        if s.length > MAX_CELL_CHARS then
          .error (context ++ ": cell value is too large (>200,000 chars)")
        else enforceEntries rest cs context
      | _ => enforceEntries rest cs context

/-- Outer loop of `enforceTabularLimits` over the rows, skipping rows that are
not object-typed (`!row || typeof row !== 'object'`). -/
def enforceRows (rows : List JValue) (columnSet : List String)
    (context : String) : Option String :=
  match rows with
  | [] => none
  | row :: rest =>
    if isJsObjectLike row then
      match enforceEntries (jsEntries row) columnSet context with
      | .error e => some e
      | .ok cs => enforceRows rest cs context
    else enforceRows rest columnSet context

/-- `enforceTabularLimits(rows, context)`: `none` when all limits pass, and
`some message` for the error thrown on the first violation found. -/
def enforceTabularLimits (rows : List JValue) (context : String) : Option String :=
  if rows.length > MAX_ROWS then
    some (context ++ ": dataset exceeds 100,000 rows")
  else enforceRows rows [] context

/-- Responses the workers post back (the fields of the corresponding payload
shapes, with the correlation id abstracted away). -/
inductive WResponse where
  | previewChunk (chunk : List JValue) (chunkIndex : Nat) (totalRows : Nat) (done : Bool)
  | previewComplete (totalRows : Nat) (previewRows : Nat)
  | conversionError (msg : String)
  | conversionSuccess (rows : List JValue)
  deriving Repr, BEq

/-- The `while (index < cappedRows.length)` loop of `emitPreviewChunks`: the
batch at `chunkIndex = 0` takes `FIRST_PREVIEW_CHUNK` rows and every later
batch takes `PREVIEW_CHUNK_SIZE`; `done` records
`index + size >= cappedRows.length`. -/
def emitChunksLoop (remaining : List JValue) (chunkIndex totalRows : Nat) :
    List WResponse :=
  match remaining with
  | [] => []
  | r :: rs =>
    let size := if chunkIndex = 0 then FIRST_PREVIEW_CHUNK else PREVIEW_CHUNK_SIZE
    WResponse.previewChunk ((r :: rs).take size) chunkIndex totalRows
        (decide ((r :: rs).length ≤ size))
      :: emitChunksLoop ((r :: rs).drop size) (chunkIndex + 1) totalRows
termination_by remaining.length
decreasing_by
  simp [FIRST_PREVIEW_CHUNK, PREVIEW_CHUNK_SIZE]
  split <;> omega

/-- `emitPreviewChunks(rows)`: cap at `PREVIEW_LIMIT`, stream the capped rows
in batches, post a single empty final batch when the capped sequence is empty,
and finish with the `PREVIEW_COMPLETE` response carrying
`{totalRows, previewRows}`. -/
def emitPreviewChunks (rows : List JValue) : List WResponse :=
  let cappedRows := rows.take PREVIEW_LIMIT
  let totalRows := rows.length
  emitChunksLoop cappedRows 0 totalRows
    ++ (if cappedRows.length = 0 then
          [WResponse.previewChunk [] 0 totalRows true]
        else [])
    ++ [WResponse.previewComplete totalRows cappedRows.length]

/-- The `PARSE_FOR_PREVIEW_STREAM` branch of the worker's message handler,
starting from the already-parsed (and optionally flattened) row list: the
limit guard runs first, and a thrown limit error is caught and posted as the
single `CONVERSION_ERROR` response with nothing else emitted. -/
def handlePreviewStream (processedData : List JValue) : List WResponse :=
  match enforceTabularLimits processedData "Preview parse" with
  | some e => [WResponse.conversionError e]
  | none => emitPreviewChunks processedData

/-- The `for (let i = 0; i < rowLimit; i++) jsonData[i] = overwriteRows[i]`
loop with `rowLimit = min(overwriteRows.length, jsonData.length)`. -/
def applyOverwriteRows : List JValue → List JValue → List JValue
  | rows, [] => rows
  | [], _ :: _ => []
  | _ :: rs, o :: os => o :: applyOverwriteRows rs os

/-- The `excel-to-json` branch of `CONVERT_EXCEL`, starting from the rows the
sheet parser produced: guard, positional overwrite, then the success
response. -/
def convertExcelToJson (jsonData : List JValue)
    (overwriteRows : Option (List JValue)) : List WResponse :=
  match enforceTabularLimits jsonData "Excel parse" with
  | some e => [WResponse.conversionError e]
  | none =>
    let rows :=
      match overwriteRows with
      | some ov => applyOverwriteRows jsonData ov
      | none => jsonData
    [WResponse.conversionSuccess rows]

/-- Per-item body of `sanitizeForTabular`: a non-object (or `null`) item
becomes `{value: item}`; inside an object item every non-null object- or
array-valued field is `JSON.stringify`-ed and other fields pass through,
written into a fresh object in entry order. -/
def sanitizeItem (item : JValue) : JValue :=
  if isJsObjectLike item then
    vObj ((jsEntries item).foldl
      (fun acc p =>
        jsInsert acc p.1
          (if isJsObjectLike p.2 then vStr (jsonStringify p.2) else p.2))
      [])
  else vObj [("value", item)]

/-- `sanitizeForTabular(data)`: `data.map(item => ...)`. -/
def sanitizeForTabular (data : List JValue) : List JValue :=
  data.map sanitizeItem

/-! ## WorkerManager (task orchestrator) -/

/-- `WorkerManager.CANCELLED_MESSAGE`. -/
def CANCELLED_MESSAGE : String := "Operation cancelled"

/-- Mutable state of a `WorkerManager` instance.  Handler maps are modelled by
the lists of correlation ids they hold (the stored callbacks are opaque);
`debounceTimers` maps a message kind to the id of its pending timer together
with the payload captured by the scheduled closure; `worker` holds the id of
the live worker instance, `none` when absent. -/
structure WMState where
  worker : Option Nat
  messageHandlers : List String
  errorHandlers : List String
  progressHandlers : List String
  debounceTimers : List (String × Nat × JValue)
  nextTimerId : Nat
  deriving Repr

/-- Observable effects of one `cancelAll` call: the timers passed to
`clearTimeout`, the `(correlationId, error)` pairs with which pending futures
are rejected, and the worker that `terminate()` was invoked on (if any was
live). -/
structure CancelEffects where
  clearedTimers : List Nat
  rejections : List (String × String)
  terminated : Option Nat
  deriving Repr

/-- `WorkerManager.cancelAll(reason)`: clear every debounce timer, reject
every pending error handler with `reason`, clear all three tracking maps,
terminate the worker and null it out. -/
def cancelAll (st : WMState) (reason : String) : WMState × CancelEffects :=
  ({ worker := none
     messageHandlers := []
     errorHandlers := []
     progressHandlers := []
     debounceTimers := []
     nextTimerId := st.nextTimerId },
   { clearedTimers := st.debounceTimers.map fun t => t.2.1
     rejections := st.errorHandlers.map fun id => (id, reason)
     terminated := st.worker })

/-- `str.toLowerCase()`. -/
def jsToLowerCase (s : String) : String :=
  String.mk (s.toList.map Char.toLower)

/-- Whether `needle` is a literal prefix of `haystack`. -/
def charsStartWith : List Char → List Char → Bool
  | [], _ => true
  | _ :: _, [] => false
  | c :: cs, d :: ds => c = d && charsStartWith cs ds

/-- Whether `needle` occurs contiguously inside `haystack`. -/
def charsContain (haystack needle : List Char) : Bool :=
  charsStartWith needle haystack ||
    match haystack with
    | [] => false
    | _ :: rest => charsContain rest needle

/-- `str.includes(sub)`: substring containment. -/
def jsStringIncludes (s sub : String) : Bool :=
  charsContain s.toList sub.toList

/-- `WorkerManager.isCancelledError(error)` on the string errors produced by
`cancelAll`: `error.toLowerCase().includes('cancel')`. -/
def isCancelledError (error : String) : Bool :=
  jsStringIncludes (jsToLowerCase error) "cancel"

/-- JS `Map.set` on the debounce-timer map: an existing key keeps its position
and gets the new timer, a new key is appended. -/
def setTimer (timers : List (String × Nat × JValue)) (kind : String)
    (t : Nat × JValue) : List (String × Nat × JValue) :=
  match timers with
  | [] => [(kind, t)]
  | (k', t') :: rest =>
    if k' = kind then (kind, t) :: rest else (k', t') :: setTimer rest kind t

/-- The `debounceMs > 0` branch of `WorkerManager.postMessage`: a pending
timer for the same kind is cleared and replaced by a fresh timer whose closure
captures the new payload. -/
def submitDebounced (st : WMState) (kind : String) (payload : JValue) : WMState :=
  { st with
    debounceTimers := setTimer st.debounceTimers kind (st.nextTimerId, payload)
    nextTimerId := st.nextTimerId + 1 }

/-- Expiry of every still-pending debounce timer with no further submissions
in between: each surviving timer's closure runs `executePostMessage`, actually
dispatching the captured payload to the worker; returns the dispatched
`(kind, payload)` requests in timer order. -/
def fireAllTimers (st : WMState) : WMState × List (String × JValue) :=
  ({ st with debounceTimers := [] },
   st.debounceTimers.map fun t => (t.1, t.2.2))

/-! ## Chunk emitter lemmas -/

/-- The `PREVIEW_CHUNK` responses among a response list, as
`(chunk, chunkIndex, totalRows, done)` tuples. -/
def batchOf : WResponse → Option (List JValue × Nat × Nat × Bool)
  | .previewChunk c i t d => some (c, i, t, d)
  | _ => none

def chunkBatches (rs : List WResponse) : List (List JValue × Nat × Nat × Bool) :=
  rs.filterMap batchOf

theorem emitChunksLoop_nil (c t : Nat) : emitChunksLoop [] c t = [] := by
  rw [emitChunksLoop]

theorem emitChunksLoop_cons (r : JValue) (rs : List JValue) (c t : Nat) :
    emitChunksLoop (r :: rs) c t =
      WResponse.previewChunk
          ((r :: rs).take (if c = 0 then FIRST_PREVIEW_CHUNK else PREVIEW_CHUNK_SIZE)) c t
          (decide ((r :: rs).length ≤ (if c = 0 then FIRST_PREVIEW_CHUNK else PREVIEW_CHUNK_SIZE)))
        :: emitChunksLoop
          ((r :: rs).drop (if c = 0 then FIRST_PREVIEW_CHUNK else PREVIEW_CHUNK_SIZE)) (c + 1) t := by
  rw [emitChunksLoop]

/-- Concatenating the emitted chunks reproduces exactly the rows the loop was
given. -/
theorem chunkBatches_loop_flatten (remaining : List JValue) (c t : Nat) :
    ((chunkBatches (emitChunksLoop remaining c t)).map (fun b => b.1)).flatten = remaining := by
  induction remaining, c, t using emitChunksLoop.induct with
  | case1 c t => simp [emitChunksLoop_nil, chunkBatches]
  | case2 c t r rs size ih =>
    rw [emitChunksLoop_cons]
    simp only [chunkBatches, List.filterMap_cons, batchOf, List.map_cons,
      List.flatten_cons] at ih ⊢
    rw [show (List.map (fun b => b.1) (List.filterMap batchOf
          (emitChunksLoop (List.drop (if c = 0 then FIRST_PREVIEW_CHUNK else PREVIEW_CHUNK_SIZE)
            (r :: rs)) (c + 1) t))).flatten
        = List.drop (if c = 0 then FIRST_PREVIEW_CHUNK else PREVIEW_CHUNK_SIZE) (r :: rs) from ih]
    exact List.take_append_drop _ _

/-- In the steady regime (`chunkIndex ≥ 1`) the loop emits a batch at
position `i` exactly when more than `200 * i` rows remain. -/
theorem chunkBatches_loop_lt_length (i : Nat) : ∀ (remaining : List JValue) (c t : Nat), 0 < c →
    (i < (chunkBatches (emitChunksLoop remaining c t)).length ↔
      PREVIEW_CHUNK_SIZE * i < remaining.length) := by
  induction i with
  | zero =>
    intro remaining c t hc
    match remaining with
    | [] => simp [emitChunksLoop_nil, chunkBatches]
    | r :: rs =>
      rw [emitChunksLoop_cons]
      have hcne : ¬ c = 0 := Nat.pos_iff_ne_zero.mp hc
      simp only [chunkBatches, List.filterMap_cons, batchOf, hcne, if_false]
      simp
  | succ i ih =>
    intro remaining c t hc
    match remaining with
    | [] => simp [emitChunksLoop_nil, chunkBatches]
    | r :: rs =>
      rw [emitChunksLoop_cons]
      have hcne : ¬ c = 0 := Nat.pos_iff_ne_zero.mp hc
      simp only [chunkBatches, List.filterMap_cons, batchOf, hcne, if_false, List.length_cons]
      rw [Nat.succ_lt_succ_iff]
      have hih := ih (List.drop PREVIEW_CHUNK_SIZE (r :: rs)) (c + 1) t (by omega)
      simp only [chunkBatches] at hih ⊢
      rw [hih]
      simp only [List.length_drop, List.length_cons, PREVIEW_CHUNK_SIZE]
      omega

/-- In the steady regime the batch at position `i` is
`(remaining.drop (200 * i)).take 200`, with index `c + i` and the `done` flag
recording whether this exhausts the rows. -/
theorem chunkBatches_loop_getElem (i : Nat) : ∀ (remaining : List JValue) (c t : Nat), 0 < c →
    PREVIEW_CHUNK_SIZE * i < remaining.length →
    (chunkBatches (emitChunksLoop remaining c t))[i]? =
      some ((remaining.drop (PREVIEW_CHUNK_SIZE * i)).take PREVIEW_CHUNK_SIZE, c + i, t,
        decide (remaining.length ≤ PREVIEW_CHUNK_SIZE * (i + 1))) := by
  induction i with
  | zero =>
    intro remaining c t hc hlen
    match remaining with
    | [] => simp at hlen
    | r :: rs =>
      rw [emitChunksLoop_cons]
      have hcne : ¬ c = 0 := Nat.pos_iff_ne_zero.mp hc
      simp only [chunkBatches, List.filterMap_cons, batchOf, hcne, if_false]
      simp
  | succ i ih =>
    intro remaining c t hc hlen
    match remaining with
    | [] => simp at hlen
    | r :: rs =>
      rw [emitChunksLoop_cons]
      have hcne : ¬ c = 0 := Nat.pos_iff_ne_zero.mp hc
      simp only [chunkBatches, List.filterMap_cons, batchOf, hcne, if_false]
      rw [List.getElem?_cons_succ]
      have hih := ih (List.drop PREVIEW_CHUNK_SIZE (r :: rs)) (c + 1) t (by omega)
          (by simp only [List.length_drop, List.length_cons, PREVIEW_CHUNK_SIZE] at hlen ⊢; omega)
      simp only [chunkBatches] at hih ⊢
      rw [hih]
      congr 1
      refine congrArg₂ _ ?_ (congrArg₂ _ (by omega) (congrArg₂ _ rfl ?_))
      · rw [List.drop_drop]
        ring_nf
      · rw [decide_eq_decide]
        simp only [List.length_drop, List.length_cons, PREVIEW_CHUNK_SIZE]
        omega

/-- The chunks of the first `m` steady-regime batches are the first `200 * m`
remaining rows. -/
theorem chunkBatches_loop_take_flatten (m : Nat) : ∀ (remaining : List JValue) (c t : Nat), 0 < c →
    (((chunkBatches (emitChunksLoop remaining c t)).take m).map (fun b => b.1)).flatten
      = remaining.take (PREVIEW_CHUNK_SIZE * m) := by
  induction m with
  | zero => intro remaining c t _; simp
  | succ m ih =>
    intro remaining c t hc
    match remaining with
    | [] => simp [emitChunksLoop_nil, chunkBatches]
    | r :: rs =>
      rw [emitChunksLoop_cons]
      have hcne : ¬ c = 0 := Nat.pos_iff_ne_zero.mp hc
      simp only [chunkBatches, List.filterMap_cons, batchOf, hcne, if_false, List.take_succ_cons,
        List.map_cons, List.flatten_cons]
      have hih := ih (List.drop PREVIEW_CHUNK_SIZE (r :: rs)) (c + 1) t (by omega)
      simp only [chunkBatches] at hih
      rw [hih]
      rw [show PREVIEW_CHUNK_SIZE * (m + 1) = PREVIEW_CHUNK_SIZE + PREVIEW_CHUNK_SIZE * m by ring]
      rw [List.take_add]

/-- When the capped sequence is non-empty, the preview batches are exactly
those of the main loop (the final `PREVIEW_COMPLETE` contributes none). -/
theorem chunkBatches_emitPreview (rows : List JValue) (h : rows.take PREVIEW_LIMIT ≠ []) :
    chunkBatches (emitPreviewChunks rows) =
      chunkBatches (emitChunksLoop (rows.take PREVIEW_LIMIT) 0 rows.length) := by
  have hlen : (rows.take PREVIEW_LIMIT).length ≠ 0 := by
    simpa [List.length_eq_zero] using h
  simp only [emitPreviewChunks, chunkBatches, List.filterMap_append, hlen, if_false]
  simp [batchOf]

/-- C2: for every row sequence of length N > 1000, the preview chunk emitter
emits exactly 1000 rows in total across all progress batches, and the
stream-complete response reports `totalRows = N` and 1000 emitted preview
rows. -/
theorem preview_cap_reports_true_total (rows : List JValue)
    (hN : PREVIEW_LIMIT < rows.length) :
    (((chunkBatches (emitPreviewChunks rows)).map (fun b => b.1)).flatten).length
        = PREVIEW_LIMIT ∧
    (emitPreviewChunks rows).getLast? =
      some (WResponse.previewComplete rows.length PREVIEW_LIMIT) := by
  have hcap : (rows.take PREVIEW_LIMIT).length = PREVIEW_LIMIT := by
    simp only [List.length_take]
    omega
  have hne : rows.take PREVIEW_LIMIT ≠ [] := by
    intro hh
    rw [hh] at hcap
    simp [PREVIEW_LIMIT] at hcap
  constructor
  · rw [chunkBatches_emitPreview rows hne, chunkBatches_loop_flatten, hcap]
  · simp only [emitPreviewChunks, hcap]
    simp only [PREVIEW_LIMIT, if_false]
    rw [List.getLast?_concat]

/-- C9: when the capped row sequence is empty the emitter emits exactly one
progress batch (an empty chunk with batch index 0 marked final) followed by
exactly one stream-complete response carrying the total and emitted row
counts. -/
theorem empty_preview_emit (rows : List JValue) (h : rows.take PREVIEW_LIMIT = []) :
    emitPreviewChunks rows =
      [WResponse.previewChunk [] 0 rows.length true,
       WResponse.previewComplete rows.length 0] := by
  simp only [emitPreviewChunks, h, emitChunksLoop_nil, List.length_nil, if_pos]
  simp

/-- C3: for a capped row sequence of length N ≥ 1, batch indices start at 0
and increase by one per batch, the first batch has `min(N, 100)` rows and
every subsequent batch has `min(remaining, 200)` rows, where `remaining`
counts the capped rows not yet emitted. -/
theorem preview_chunk_sizing (rows : List JValue)
    (hN : 1 ≤ (rows.take PREVIEW_LIMIT).length) :
    (∀ (i : Nat) (b : List JValue × Nat × Nat × Bool),
      (chunkBatches (emitPreviewChunks rows))[i]? = some b → b.2.1 = i) ∧
    (∀ b : List JValue × Nat × Nat × Bool, (chunkBatches (emitPreviewChunks rows))[0]? = some b →
      b.1.length = min (rows.take PREVIEW_LIMIT).length FIRST_PREVIEW_CHUNK) ∧
    (∀ (i : Nat) (b : List JValue × Nat × Nat × Bool),
      (chunkBatches (emitPreviewChunks rows))[i + 1]? = some b →
      b.1.length = min
        ((rows.take PREVIEW_LIMIT).length -
          ((((chunkBatches (emitPreviewChunks rows)).take (i + 1)).map
              (fun x => x.1)).flatten).length)
        PREVIEW_CHUNK_SIZE) := by
  have hne : rows.take PREVIEW_LIMIT ≠ [] := by
    intro hh
    rw [hh] at hN
    simp at hN
  obtain ⟨r, rs, hcons⟩ := List.exists_cons_of_ne_nil hne
  have hsplit : chunkBatches (emitPreviewChunks rows) =
      ((r :: rs).take FIRST_PREVIEW_CHUNK, 0, rows.length,
        decide ((r :: rs).length ≤ FIRST_PREVIEW_CHUNK))
      :: chunkBatches (emitChunksLoop ((r :: rs).drop FIRST_PREVIEW_CHUNK) 1 rows.length) := by
    rw [chunkBatches_emitPreview rows hne, hcons, emitChunksLoop_cons]
    simp [chunkBatches, batchOf]
  rw [hcons]
  refine ⟨?_, ?_, ?_⟩
  · intro i b hb
    cases i with
    | zero =>
      rw [hsplit, List.getElem?_cons_zero] at hb
      cases hb
      rfl
    | succ i =>
      rw [hsplit, List.getElem?_cons_succ] at hb
      have hlt : i < (chunkBatches (emitChunksLoop ((r :: rs).drop FIRST_PREVIEW_CHUNK) 1 rows.length)).length :=
        (List.getElem?_eq_some.mp hb).1
      rw [chunkBatches_loop_lt_length i _ 1 rows.length (by omega)] at hlt
      rw [chunkBatches_loop_getElem i _ 1 rows.length (by omega) hlt] at hb
      cases hb
      simp only
      omega
  · intro b hb
    rw [hsplit, List.getElem?_cons_zero] at hb
    cases hb
    simp only [List.length_take, List.length_cons]
    rw [Nat.min_comm]
  · intro i b hb
    rw [hsplit, List.getElem?_cons_succ] at hb
    have hlt : i < (chunkBatches (emitChunksLoop ((r :: rs).drop FIRST_PREVIEW_CHUNK) 1 rows.length)).length :=
      (List.getElem?_eq_some.mp hb).1
    rw [chunkBatches_loop_lt_length i _ 1 rows.length (by omega)] at hlt
    rw [chunkBatches_loop_getElem i _ 1 rows.length (by omega) hlt] at hb
    cases hb
    rw [hsplit]
    simp only [List.take_succ_cons, List.map_cons, List.flatten_cons]
    rw [chunkBatches_loop_take_flatten i _ 1 rows.length (by omega)]
    simp only [List.length_take, List.length_drop, List.length_append, List.length_cons,
      List.length_take, FIRST_PREVIEW_CHUNK, PREVIEW_CHUNK_SIZE] at hlt ⊢
    omega

/-- Witness for C2 at a concrete 1001-row input. -/
theorem preview_cap_reports_true_total_witness :
    (((chunkBatches (emitPreviewChunks (List.replicate 1001 JValue.vNull))).map
        (fun b => b.1)).flatten).length = PREVIEW_LIMIT ∧
    (emitPreviewChunks (List.replicate 1001 JValue.vNull)).getLast? =
      some (WResponse.previewComplete (List.replicate 1001 JValue.vNull).length PREVIEW_LIMIT) :=
  preview_cap_reports_true_total (List.replicate 1001 JValue.vNull)
    (by rw [List.length_replicate]; norm_num [PREVIEW_LIMIT])

/-- Witness for C9 at the empty input. -/
theorem empty_preview_emit_witness :
    emitPreviewChunks [] =
      [WResponse.previewChunk [] 0 (List.length ([] : List JValue)) true,
       WResponse.previewComplete (List.length ([] : List JValue)) 0] :=
  empty_preview_emit [] rfl

/-- Witness for C3 at a concrete 150-row input. -/
theorem preview_chunk_sizing_witness :
    (∀ (i : Nat) (b : List JValue × Nat × Nat × Bool),
      (chunkBatches (emitPreviewChunks (List.replicate 150 JValue.vNull)))[i]? = some b →
        b.2.1 = i) ∧
    (∀ b : List JValue × Nat × Nat × Bool,
      (chunkBatches (emitPreviewChunks (List.replicate 150 JValue.vNull)))[0]? = some b →
      b.1.length = min ((List.replicate 150 JValue.vNull).take PREVIEW_LIMIT).length
        FIRST_PREVIEW_CHUNK) ∧
    (∀ (i : Nat) (b : List JValue × Nat × Nat × Bool),
      (chunkBatches (emitPreviewChunks (List.replicate 150 JValue.vNull)))[i + 1]? = some b →
      b.1.length = min
        (((List.replicate 150 JValue.vNull).take PREVIEW_LIMIT).length -
          ((((chunkBatches (emitPreviewChunks (List.replicate 150 JValue.vNull))).take (i + 1)).map
              (fun x => x.1)).flatten).length)
        PREVIEW_CHUNK_SIZE) :=
  preview_chunk_sizing (List.replicate 150 JValue.vNull)
    (by rw [List.length_take, List.length_replicate]; norm_num [PREVIEW_LIMIT])


end DevDesk

namespace DevDesk
open JValue

def foldCols (entries : List (String × JValue)) (cs : List String) : List String :=
  entries.foldl (fun a p => addColumn a p.1) cs

def rowColsFold (rows : List JValue) (cs : List String) : List String :=
  rows.foldl (fun acc row => if isJsObjectLike row then foldCols (jsEntries row) acc else acc) cs

def rowColumns (rows : List JValue) : List String := rowColsFold rows []

theorem addColumn_length (cs : List String) (k : String) :
    cs.length ≤ (addColumn cs k).length ∧ (addColumn cs k).length ≤ cs.length + 1 := by
  simp only [addColumn]
  split <;> simp

theorem foldCols_mono (entries : List (String × JValue)) : ∀ cs : List String,
    cs.length ≤ (foldCols entries cs).length := by
  induction entries with
  | nil => intro cs; simp [foldCols]
  | cons p rest ih =>
    intro cs
    simp only [foldCols, List.foldl_cons]
    exact le_trans (addColumn_length cs p.1).1 (ih (addColumn cs p.1))

theorem rowColsFold_mono (rows : List JValue) : ∀ cs : List String,
    cs.length ≤ (rowColsFold rows cs).length := by
  induction rows with
  | nil => intro cs; simp [rowColsFold]
  | cons row rest ih =>
    intro cs
    simp only [rowColsFold, List.foldl_cons]
    by_cases hrow : isJsObjectLike row
    · simp only [hrow, if_true]
      exact le_trans (foldCols_mono (jsEntries row) cs) (ih (foldCols (jsEntries row) cs))
    · simp only [hrow, if_false]
      exact ih cs

theorem enforceEntries_ok (entries : List (String × JValue)) : ∀ (cs : List String) (ctx : String),
    (foldCols entries cs).length ≤ MAX_COLUMNS →
    (∀ p ∈ entries, ∀ s, p.2 = vStr s → s.length ≤ MAX_CELL_CHARS) →
    enforceEntries entries cs ctx = .ok (foldCols entries cs) := by
  induction entries with
  | nil => intro cs ctx _ _; simp [enforceEntries, foldCols]
  | cons p rest ih =>
    intro cs ctx hcols hcells
    obtain ⟨k, v⟩ := p
    have hcs : (addColumn cs k).length ≤ MAX_COLUMNS := by
      have h1 := foldCols_mono rest (addColumn cs k)
      simp only [foldCols, List.foldl_cons] at hcols
      exact le_trans h1 hcols
    simp only [enforceEntries]
    rw [if_neg (by omega)]
    have hrest : enforceEntries rest (addColumn cs k) ctx = .ok (foldCols rest (addColumn cs k)) := by
      refine ih (addColumn cs k) ctx ?_ ?_
      · simp only [foldCols, List.foldl_cons] at hcols
        exact hcols
      · intro q hq s hs
        exact hcells q (List.mem_cons_of_mem _ hq) s hs
    match v with
    | vStr s =>
      have hsmall : s.length ≤ MAX_CELL_CHARS :=
        hcells (k, vStr s) (List.mem_cons_self _ _) s rfl
      simp only []
      rw [if_neg (by omega)]
      simpa [foldCols] using hrest
    | vNull => simpa [foldCols] using hrest
    | vBool b => simpa [foldCols] using hrest
    | vNum n => simpa [foldCols] using hrest
    | vArr xs => simpa [foldCols] using hrest
    | vObj fs => simpa [foldCols] using hrest

end DevDesk

namespace DevDesk
open JValue

theorem enforceEntries_cols (entries : List (String × JValue)) : ∀ (cs : List String) (ctx : String),
    cs.length ≤ MAX_COLUMNS →
    (∀ p ∈ entries, ∀ s, p.2 = vStr s → s.length ≤ MAX_CELL_CHARS) →
    MAX_COLUMNS < (foldCols entries cs).length →
    enforceEntries entries cs ctx = .error (ctx ++ ": dataset exceeds 500 columns") := by
  induction entries with
  | nil =>
    intro cs ctx hcs _ hcols
    simp only [foldCols, List.foldl_nil] at hcols
    omega
  | cons p rest ih =>
    intro cs ctx hcs hcells hcols
    obtain ⟨k, v⟩ := p
    simp only [enforceEntries]
    by_cases hover : MAX_COLUMNS < (addColumn cs k).length
    · rw [if_pos (by omega)]
    · rw [if_neg (by omega)]
      have hrest : enforceEntries rest (addColumn cs k) ctx =
          .error (ctx ++ ": dataset exceeds 500 columns") := by
        refine ih (addColumn cs k) ctx (by omega) ?_ ?_
        · intro q hq s hs
          exact hcells q (List.mem_cons_of_mem _ hq) s hs
        · simp only [foldCols, List.foldl_cons] at hcols
          exact hcols
      match v with
      | vStr s =>
        have hsmall : s.length ≤ MAX_CELL_CHARS :=
          hcells (k, vStr s) (List.mem_cons_self _ _) s rfl
        simp only []
        rw [if_neg (by omega)]
        exact hrest
      | vNull => exact hrest
      | vBool b => exact hrest
      | vNum n => exact hrest
      | vArr xs => exact hrest
      | vObj fs => exact hrest

theorem enforceEntries_cell (entries : List (String × JValue)) : ∀ (cs : List String) (ctx : String),
    (foldCols entries cs).length ≤ MAX_COLUMNS →
    (∃ p ∈ entries, ∃ s, p.2 = vStr s ∧ MAX_CELL_CHARS < s.length) →
    enforceEntries entries cs ctx = .error (ctx ++ ": cell value is too large (>200,000 chars)") := by
  induction entries with
  | nil =>
    intro cs ctx _ hex
    simp at hex
  | cons p rest ih =>
    intro cs ctx hcols hex
    obtain ⟨k, v⟩ := p
    have hcs : (addColumn cs k).length ≤ MAX_COLUMNS := by
      have h1 := foldCols_mono rest (addColumn cs k)
      simp only [foldCols, List.foldl_cons] at hcols
      exact le_trans h1 hcols
    simp only [enforceEntries]
    rw [if_neg (by omega)]
    have hcolsrest : (foldCols rest (addColumn cs k)).length ≤ MAX_COLUMNS := by
      simp only [foldCols, List.foldl_cons] at hcols
      exact hcols
    match v with
    | vStr s =>
      by_cases hbig : MAX_CELL_CHARS < s.length
      · simp only []
        rw [if_pos (by omega)]
      · simp only []
        rw [if_neg (by omega)]
        refine ih (addColumn cs k) ctx hcolsrest ?_
        rcases hex with ⟨q, hq, s', hs', hlen⟩
        rcases List.mem_cons.mp hq with hhead | htail
        · exfalso
          rw [hhead] at hs'
          simp only at hs'
          cases hs'
          omega
        · exact ⟨q, htail, s', hs', hlen⟩
    | vNull =>
      refine ih (addColumn cs k) ctx hcolsrest ?_
      rcases hex with ⟨q, hq, s', hs', hlen⟩
      rcases List.mem_cons.mp hq with hhead | htail
      · exfalso; rw [hhead] at hs'; simp at hs'
      · exact ⟨q, htail, s', hs', hlen⟩
    | vBool b =>
      refine ih (addColumn cs k) ctx hcolsrest ?_
      rcases hex with ⟨q, hq, s', hs', hlen⟩
      rcases List.mem_cons.mp hq with hhead | htail
      · exfalso; rw [hhead] at hs'; simp at hs'
      · exact ⟨q, htail, s', hs', hlen⟩
    | vNum n =>
      refine ih (addColumn cs k) ctx hcolsrest ?_
      rcases hex with ⟨q, hq, s', hs', hlen⟩
      rcases List.mem_cons.mp hq with hhead | htail
      · exfalso; rw [hhead] at hs'; simp at hs'
      · exact ⟨q, htail, s', hs', hlen⟩
    | vArr xs =>
      refine ih (addColumn cs k) ctx hcolsrest ?_
      rcases hex with ⟨q, hq, s', hs', hlen⟩
      rcases List.mem_cons.mp hq with hhead | htail
      · exfalso; rw [hhead] at hs'; simp at hs'
      · exact ⟨q, htail, s', hs', hlen⟩
    | vObj fs =>
      refine ih (addColumn cs k) ctx hcolsrest ?_
      rcases hex with ⟨q, hq, s', hs', hlen⟩
      rcases List.mem_cons.mp hq with hhead | htail
      · exfalso; rw [hhead] at hs'; simp at hs'
      · exact ⟨q, htail, s', hs', hlen⟩

end DevDesk

namespace DevDesk
open JValue

theorem jsEntries_of_not_objectLike (row : JValue) (h : isJsObjectLike row = false) :
    jsEntries row = [] := by
  match row with
  | vNull => rfl
  | vBool b => rfl
  | vNum n => rfl
  | vStr s => rfl
  | vArr xs => simp [isJsObjectLike] at h
  | vObj fs => simp [isJsObjectLike] at h

theorem enforceRows_ok (rows : List JValue) : ∀ (cs : List String) (ctx : String),
    (rowColsFold rows cs).length ≤ MAX_COLUMNS →
    (∀ row ∈ rows, ∀ p ∈ jsEntries row, ∀ s, p.2 = vStr s → s.length ≤ MAX_CELL_CHARS) →
    enforceRows rows cs ctx = none := by
  induction rows with
  | nil => intro cs ctx _ _; rfl
  | cons row rest ih =>
    intro cs ctx hcols hcells
    simp only [enforceRows]
    by_cases hrow : isJsObjectLike row
    · simp only [hrow, if_true]
      have hstep : (foldCols (jsEntries row) cs).length ≤ MAX_COLUMNS := by
        have h1 := rowColsFold_mono rest (foldCols (jsEntries row) cs)
        simp only [rowColsFold, List.foldl_cons, hrow, if_true] at hcols
        exact le_trans h1 hcols
      rw [enforceEntries_ok (jsEntries row) cs ctx hstep
        (fun p hp s hs => hcells row (List.mem_cons_self _ _) p hp s hs)]
      refine ih (foldCols (jsEntries row) cs) ctx ?_ ?_
      · simp only [rowColsFold, List.foldl_cons, hrow, if_true] at hcols
        exact hcols
      · intro r hr p hp s hs
        exact hcells r (List.mem_cons_of_mem _ hr) p hp s hs
    · simp only [hrow, if_false]
      refine ih cs ctx ?_ ?_
      · simp only [rowColsFold, List.foldl_cons, hrow, if_false] at hcols
        exact hcols
      · intro r hr p hp s hs
        exact hcells r (List.mem_cons_of_mem _ hr) p hp s hs

theorem enforceRows_cols (rows : List JValue) : ∀ (cs : List String) (ctx : String),
    cs.length ≤ MAX_COLUMNS →
    (∀ row ∈ rows, ∀ p ∈ jsEntries row, ∀ s, p.2 = vStr s → s.length ≤ MAX_CELL_CHARS) →
    MAX_COLUMNS < (rowColsFold rows cs).length →
    enforceRows rows cs ctx = some (ctx ++ ": dataset exceeds 500 columns") := by
  induction rows with
  | nil =>
    intro cs ctx hcs _ hcols
    simp only [rowColsFold, List.foldl_nil] at hcols
    omega
  | cons row rest ih =>
    intro cs ctx hcs hcells hcols
    simp only [enforceRows]
    by_cases hrow : isJsObjectLike row
    · simp only [hrow, if_true]
      by_cases hover : MAX_COLUMNS < (foldCols (jsEntries row) cs).length
      · rw [enforceEntries_cols (jsEntries row) cs ctx hcs
          (fun p hp s hs => hcells row (List.mem_cons_self _ _) p hp s hs) hover]
      · rw [enforceEntries_ok (jsEntries row) cs ctx (by omega)
          (fun p hp s hs => hcells row (List.mem_cons_self _ _) p hp s hs)]
        refine ih (foldCols (jsEntries row) cs) ctx (by omega) ?_ ?_
        · intro r hr p hp s hs
          exact hcells r (List.mem_cons_of_mem _ hr) p hp s hs
        · simp only [rowColsFold, List.foldl_cons, hrow, if_true] at hcols
          exact hcols
    · simp only [hrow, if_false]
      refine ih cs ctx hcs ?_ ?_
      · intro r hr p hp s hs
        exact hcells r (List.mem_cons_of_mem _ hr) p hp s hs
      · simp only [rowColsFold, List.foldl_cons, hrow, if_false] at hcols
        exact hcols

theorem enforceRows_cell (rows : List JValue) : ∀ (cs : List String) (ctx : String),
    (rowColsFold rows cs).length ≤ MAX_COLUMNS →
    (∃ row ∈ rows, ∃ p ∈ jsEntries row, ∃ s, p.2 = vStr s ∧ MAX_CELL_CHARS < s.length) →
    enforceRows rows cs ctx = some (ctx ++ ": cell value is too large (>200,000 chars)") := by
  induction rows with
  | nil =>
    intro cs ctx _ hex
    simp at hex
  | cons row rest ih =>
    intro cs ctx hcols hex
    simp only [enforceRows]
    by_cases hrow : isJsObjectLike row
    · simp only [hrow, if_true]
      have hstep : (foldCols (jsEntries row) cs).length ≤ MAX_COLUMNS := by
        have h1 := rowColsFold_mono rest (foldCols (jsEntries row) cs)
        simp only [rowColsFold, List.foldl_cons, hrow, if_true] at hcols
        exact le_trans h1 hcols
      by_cases hhead : ∃ p ∈ jsEntries row, ∃ s, p.2 = vStr s ∧ MAX_CELL_CHARS < s.length
      · rw [enforceEntries_cell (jsEntries row) cs ctx hstep hhead]
      · rw [enforceEntries_ok (jsEntries row) cs ctx hstep ?hcells]
        case hcells =>
          intro p hp s hs
          by_contra hbig
          exact hhead ⟨p, hp, s, hs, by omega⟩
        refine ih (foldCols (jsEntries row) cs) ctx ?_ ?_
        · simp only [rowColsFold, List.foldl_cons, hrow, if_true] at hcols
          exact hcols
        · rcases hex with ⟨r, hr, hrest⟩
          rcases List.mem_cons.mp hr with h1 | h1
          · exfalso
            rw [h1] at hrest
            exact hhead hrest
          · exact ⟨r, h1, hrest⟩
    · simp only [hrow, if_false]
      refine ih cs ctx ?_ ?_
      · simp only [rowColsFold, List.foldl_cons, hrow, if_false] at hcols
        exact hcols
      · rcases hex with ⟨r, hr, hrest⟩
        rcases List.mem_cons.mp hr with h1 | h1
        · exfalso
          rw [h1] at hrest
          rw [jsEntries_of_not_objectLike row (by simpa using hrow)] at hrest
          simp at hrest
        · exact ⟨r, h1, hrest⟩

end DevDesk

namespace DevDesk
open JValue

/-- C1: the tabular limit guard fails with the rows-limit error on more than
100,000 rows; with the columns-limit error when the distinct columns across
object rows exceed 500 (and no cell violation preempts it); with the
cell-length error on any string cell longer than 200,000 characters (when the
column set stays within bounds); and whenever the guard fails, the preview
stream handler ends with the single terminal error response and emits no
success response or chunk batch. -/
theorem tabular_limit_enforcement :
    (∀ (rows : List JValue) (ctx : String), MAX_ROWS < rows.length →
      enforceTabularLimits rows ctx = some (ctx ++ ": dataset exceeds 100,000 rows")) ∧
    (∀ (rows : List JValue) (ctx : String), rows.length ≤ MAX_ROWS →
      (∀ row ∈ rows, ∀ p ∈ jsEntries row, ∀ s, p.2 = vStr s → s.length ≤ MAX_CELL_CHARS) →
      MAX_COLUMNS < (rowColumns rows).length →
      enforceTabularLimits rows ctx = some (ctx ++ ": dataset exceeds 500 columns")) ∧
    (∀ (rows : List JValue) (ctx : String), rows.length ≤ MAX_ROWS →
      (rowColumns rows).length ≤ MAX_COLUMNS →
      (∃ row ∈ rows, ∃ p ∈ jsEntries row, ∃ s, p.2 = vStr s ∧ MAX_CELL_CHARS < s.length) →
      enforceTabularLimits rows ctx = some (ctx ++ ": cell value is too large (>200,000 chars)")) ∧
    (∀ (rows : List JValue) (e : String), enforceTabularLimits rows "Preview parse" = some e →
      handlePreviewStream rows = [WResponse.conversionError e]) := by
  refine ⟨?_, ?_, ?_, ?_⟩
  · intro rows ctx h
    simp only [enforceTabularLimits]
    rw [if_pos (by omega)]
  · intro rows ctx hrows hcells hcols
    simp only [enforceTabularLimits]
    rw [if_neg (by omega)]
    exact enforceRows_cols rows [] ctx (by simp [MAX_COLUMNS]) hcells hcols
  · intro rows ctx hrows hcols hex
    simp only [enforceTabularLimits]
    rw [if_neg (by omega)]
    exact enforceRows_cell rows [] ctx hcols hex
  · intro rows e h
    simp only [handlePreviewStream, h]

/-- Witness for C1 at a concrete 100,001-row input. -/
theorem tabular_limit_enforcement_witness :
    enforceTabularLimits (List.replicate 100001 JValue.vNull) "Preview parse"
      = some ("Preview parse" ++ ": dataset exceeds 100,000 rows") :=
  tabular_limit_enforcement.1 (List.replicate 100001 JValue.vNull) "Preview parse"
    (by rw [List.length_replicate]; norm_num [MAX_ROWS])

end DevDesk

namespace DevDesk
open JValue

theorem jsInsert_of_not_mem (fields : List (String × JValue)) (k : String) (v : JValue)
    (h : k ∉ fields.map Prod.fst) : jsInsert fields k v = fields ++ [(k, v)] := by
  induction fields with
  | nil => rfl
  | cons q rest ih =>
    simp only [List.map_cons, List.mem_cons] at h
    push_neg at h
    simp only [jsInsert]
    rw [if_neg (fun hq => h.1 hq.symm)]
    rw [ih h.2]
    simp

theorem jsInsert_mem (fields : List (String × JValue)) (k : String) (v : JValue) :
    ∀ q ∈ jsInsert fields k v, q = (k, v) ∨ q ∈ fields := by
  induction fields with
  | nil =>
    intro q hq
    simp [jsInsert] at hq
    exact Or.inl hq
  | cons p rest ih =>
    intro q hq
    simp only [jsInsert] at hq
    split at hq
    · rcases List.mem_cons.mp hq with h | h
      · exact Or.inl h
      · exact Or.inr (List.mem_cons_of_mem _ h)
    · rcases List.mem_cons.mp hq with h | h
      · exact Or.inr (h ▸ List.mem_cons_self _ _)
      · rcases ih q h with h1 | h1
        · exact Or.inl h1
        · exact Or.inr (List.mem_cons_of_mem _ h1)

theorem jsInsert_keys (fields : List (String × JValue)) (k : String) (v : JValue) :
    (jsInsert fields k v).map Prod.fst =
      if k ∈ fields.map Prod.fst then fields.map Prod.fst
      else fields.map Prod.fst ++ [k] := by
  induction fields with
  | nil => simp [jsInsert]
  | cons p rest ih =>
    simp only [jsInsert]
    by_cases hp : p.1 = k
    · obtain ⟨k', v'⟩ := p
      simp only at hp
      subst hp
      rw [if_pos rfl]
      simp
    · obtain ⟨k', v'⟩ := p
      simp only at hp
      rw [if_neg hp]
      simp only [List.map_cons, List.mem_cons]
      rw [ih]
      by_cases hk : k ∈ rest.map Prod.fst
      · rw [if_pos hk, if_pos (Or.inr hk)]
      · rw [if_neg hk, if_neg (by rintro (h | h); exact hp h.symm; exact hk h)]
        simp

theorem jsInsert_nodup (fields : List (String × JValue)) (k : String) (v : JValue)
    (h : (fields.map Prod.fst).Nodup) : ((jsInsert fields k v).map Prod.fst).Nodup := by
  rw [jsInsert_keys]
  by_cases hk : k ∈ fields.map Prod.fst
  · rw [if_pos hk]; exact h
  · rw [if_neg hk]
    simp [List.nodup_append, h, hk]

end DevDesk

namespace DevDesk
open JValue

theorem flattenLoop_nil (result : List (String × JValue)) : flattenLoop [] result = result := by
  rw [flattenLoop]

theorem flattenLoop_frameNil (pfx : String) (rest : List (String × List (String × JValue)))
    (result : List (String × JValue)) :
    flattenLoop ((pfx, []) :: rest) result = flattenLoop rest result := by
  rw [flattenLoop]

theorem flattenLoop_cons_obj (pfx k : String) (fs : List (String × JValue))
    (es : List (String × JValue)) (rest : List (String × List (String × JValue)))
    (result : List (String × JValue)) :
    flattenLoop ((pfx, (k, vObj fs) :: es) :: rest) result =
      flattenLoop ((pfx, es) :: (if pfx = "" then k else pfx ++ "." ++ k, fs) :: rest) result := by
  rw [flattenLoop]

theorem flattenLoop_cons_arr (pfx k : String) (xs : List JValue)
    (es : List (String × JValue)) (rest : List (String × List (String × JValue)))
    (result : List (String × JValue)) :
    flattenLoop ((pfx, (k, vArr xs) :: es) :: rest) result =
      flattenLoop ((pfx, es) :: rest)
        (jsInsert result (if pfx = "" then k else pfx ++ "." ++ k)
          (vStr (jsonStringify (vArr xs)))) := by
  rw [flattenLoop]

theorem flattenLoop_cons_flat (pfx k : String) (v : JValue) (hv : isJsObjectLike v = false)
    (es : List (String × JValue)) (rest : List (String × List (String × JValue)))
    (result : List (String × JValue)) :
    flattenLoop ((pfx, (k, v) :: es) :: rest) result =
      flattenLoop ((pfx, es) :: rest)
        (jsInsert result (if pfx = "" then k else pfx ++ "." ++ k) v) := by
  match v with
  | vNull => rw [flattenLoop] <;> simp
  | vBool b => rw [flattenLoop] <;> simp
  | vNum n => rw [flattenLoop] <;> simp
  | vStr s => rw [flattenLoop] <;> simp
  | vArr xs => simp [isJsObjectLike] at hv
  | vObj fs => simp [isJsObjectLike] at hv

theorem flattenLoop_flat (stack : List (String × List (String × JValue)))
    (result : List (String × JValue))
    (h : ∀ q ∈ result, isJsObjectLike q.2 = false) :
    ∀ q ∈ flattenLoop stack result, isJsObjectLike q.2 = false := by
  induction stack, result using flattenLoop.induct with
  | case1 result => simpa [flattenLoop_nil] using h
  | case2 pfx rest result ih => rw [flattenLoop_frameNil]; exact ih h
  | case3 result pfx k es rest newKey fs ih =>
    rw [flattenLoop_cons_obj]
    exact ih h
  | case4 result pfx k es rest newKey xs ih =>
    rw [flattenLoop_cons_arr]
    refine ih ?_
    intro q hq
    rcases jsInsert_mem _ _ _ q hq with h1 | h1
    · rw [h1]
      rfl
    · exact h q h1
  | case5 result pfx k v es rest newKey hobj harr ih =>
    have hd : isJsObjectLike v = false := by
      cases v with
      | vObj fs => exact (hobj fs rfl).elim
      | vArr xs => exact (harr xs rfl).elim
      | vNull => rfl
      | vBool b => rfl
      | vNum n => rfl
      | vStr s => rfl
    rw [flattenLoop_cons_flat _ _ _ hd]
    refine ih ?_
    intro q hq
    rcases jsInsert_mem _ _ _ q hq with h1 | h1
    · rw [h1]
      exact hd
    · exact h q h1

theorem flattenLoop_nodup (stack : List (String × List (String × JValue)))
    (result : List (String × JValue))
    (h : (result.map Prod.fst).Nodup) :
    ((flattenLoop stack result).map Prod.fst).Nodup := by
  induction stack, result using flattenLoop.induct with
  | case1 result => simpa [flattenLoop_nil] using h
  | case2 pfx rest result ih => rw [flattenLoop_frameNil]; exact ih h
  | case3 result pfx k es rest newKey fs ih =>
    rw [flattenLoop_cons_obj]
    exact ih h
  | case4 result pfx k es rest newKey xs ih =>
    rw [flattenLoop_cons_arr]
    exact ih (jsInsert_nodup _ _ _ h)
  | case5 result pfx k v es rest newKey hobj harr ih =>
    have hd : isJsObjectLike v = false := by
      cases v with
      | vObj fs => exact (hobj fs rfl).elim
      | vArr xs => exact (harr xs rfl).elim
      | vNull => rfl
      | vBool b => rfl
      | vNum n => rfl
      | vStr s => rfl
    rw [flattenLoop_cons_flat _ _ _ hd]
    exact ih (jsInsert_nodup _ _ _ h)

theorem flattenLoop_flat_id (fs : List (String × JValue)) :
    ∀ result : List (String × JValue),
    (∀ p ∈ fs, isJsObjectLike p.2 = false) →
    (fs.map Prod.fst).Nodup →
    (∀ k ∈ fs.map Prod.fst, k ∉ result.map Prod.fst) →
    flattenLoop [("", fs)] result = result ++ fs := by
  induction fs with
  | nil =>
    intro result _ _ _
    rw [flattenLoop_frameNil, flattenLoop_nil]
    simp
  | cons p rest ih =>
    intro result hflat hnodup hdisj
    obtain ⟨k, v⟩ := p
    have hv : isJsObjectLike v = false := hflat (k, v) (List.mem_cons_self _ _)
    rw [flattenLoop_cons_flat _ _ _ hv]
    rw [if_pos rfl]
    rw [jsInsert_of_not_mem _ _ _
      (hdisj k (by rw [List.map_cons]; exact List.mem_cons_self _ _))]
    rw [List.map_cons] at hnodup
    have hn := List.nodup_cons.mp hnodup
    rw [ih (result ++ [(k, v)]) (fun q hq => hflat q (List.mem_cons_of_mem _ hq)) hn.2 ?_]
    · simp
    · intro k' hk'
      simp only [List.map_append, List.mem_append]
      push_neg
      refine ⟨hdisj k' (by rw [List.map_cons]; exact List.mem_cons_of_mem _ hk'), ?_⟩
      simp only [List.map_cons, List.map_nil, List.mem_singleton]
      intro hkk
      rw [hkk] at hk'
      exact hn.1 hk'

/-- C7: flattening `{a: {b: 1, c: [2,3]}}` yields `{"a.b": 1, "a.c": "[2,3]"}`
(nested keys joined with `.`, arrays serialized to their JSON string, scalars
passed through); flatten returns any already-flat record (scalar-valued,
duplicate-free keys) unchanged, and hence `flatten (flatten r) = flatten r`
for every record `r`. -/
theorem flatten_example_and_idempotent :
    (flattenObject (vObj [("a", vObj [("b", vNum 1), ("c", vArr [vNum 2, vNum 3])])]) =
      vObj [("a.b", vNum 1), ("a.c", vStr "[2,3]")]) ∧
    (∀ fs : List (String × JValue), (∀ p ∈ fs, isJsObjectLike p.2 = false) →
      (fs.map Prod.fst).Nodup → flattenObject (vObj fs) = vObj fs) ∧
    (∀ fs : List (String × JValue),
      flattenObject (flattenObject (vObj fs)) = flattenObject (vObj fs)) := by
  have hid : ∀ fs : List (String × JValue), (∀ p ∈ fs, isJsObjectLike p.2 = false) →
      (fs.map Prod.fst).Nodup → flattenObject (vObj fs) = vObj fs := by
    intro fs hflat hnodup
    show vObj (flattenLoop [("", fs)] []) = vObj fs
    rw [flattenLoop_flat_id fs [] hflat hnodup (by simp)]
    simp
  refine ⟨?_, hid, ?_⟩
  · simp [flattenObject, flattenLoop, jsInsert, jsonStringify, jsonStringifyList, jsonEscape,
      jsonEscapeChar, String.intercalate]
    rfl
  · intro fs
    show flattenObject (vObj (flattenLoop [("", fs)] [])) = vObj (flattenLoop [("", fs)] [])
    exact hid _ (flattenLoop_flat _ _ (by simp)) (flattenLoop_nodup _ _ (by simp))

/-- Witness for C7's already-flat clause at a concrete two-field record. -/
theorem flatten_flat_id_witness :
    flattenObject (vObj [("x", vNum 1), ("y", vStr "s")]) =
      vObj [("x", vNum 1), ("y", vStr "s")] :=
  flatten_example_and_idempotent.2.1 [("x", vNum 1), ("y", vStr "s")]
    (by simp [isJsObjectLike]) (by simp)

end DevDesk

namespace DevDesk
open JValue

theorem applyOverwriteRows_length (rows : List JValue) : ∀ ov : List JValue,
    (applyOverwriteRows rows ov).length = rows.length := by
  induction rows with
  | nil => intro ov; cases ov <;> rfl
  | cons r rs ih =>
    intro ov
    cases ov with
    | nil => rfl
    | cons o os => simp [applyOverwriteRows, ih]

theorem applyOverwriteRows_get_lt (rows : List JValue) : ∀ (ov : List JValue) (i : Nat),
    ov.length ≤ rows.length → i < ov.length →
    (applyOverwriteRows rows ov)[i]? = ov[i]? := by
  induction rows with
  | nil =>
    intro ov i hle hlt
    simp only [List.length_nil] at hle
    omega
  | cons r rs ih =>
    intro ov i hle hlt
    cases ov with
    | nil => simp at hlt
    | cons o os =>
      cases i with
      | zero => simp [applyOverwriteRows]
      | succ i =>
        simp only [applyOverwriteRows, List.getElem?_cons_succ]
        exact ih os i (by simpa using hle) (by simpa using hlt)

theorem applyOverwriteRows_get_ge (rows : List JValue) : ∀ (ov : List JValue) (i : Nat),
    ov.length ≤ i →
    (applyOverwriteRows rows ov)[i]? = rows[i]? := by
  induction rows with
  | nil => intro ov i hge; cases ov <;> rfl
  | cons r rs ih =>
    intro ov i hge
    cases ov with
    | nil => rfl
    | cons o os =>
      cases i with
      | zero => simp at hge
      | succ i =>
        simp only [applyOverwriteRows, List.getElem?_cons_succ]
        exact ih os i (by simpa using hge)

/-- C8: when `overwriteRows` has length k and the parsed dataset has n ≥ k
rows, the conversion result's rows 0..k-1 equal the supplied overwrite rows
exactly and rows k..n-1 equal the original source rows unchanged (and the
success response carries exactly this row list). -/
theorem overwrite_rows_replaces_prefix_only (jsonData ov : List JValue)
    (hguard : enforceTabularLimits jsonData "Excel parse" = none)
    (hk : ov.length ≤ jsonData.length) :
    convertExcelToJson jsonData (some ov) =
      [WResponse.conversionSuccess (applyOverwriteRows jsonData ov)] ∧
    (applyOverwriteRows jsonData ov).length = jsonData.length ∧
    (∀ i : Nat, i < ov.length → (applyOverwriteRows jsonData ov)[i]? = ov[i]?) ∧
    (∀ i : Nat, ov.length ≤ i → (applyOverwriteRows jsonData ov)[i]? = jsonData[i]?) := by
  refine ⟨?_, applyOverwriteRows_length jsonData ov, ?_, ?_⟩
  · simp only [convertExcelToJson, hguard]
  · intro i hi
    exact applyOverwriteRows_get_lt jsonData ov i hk hi
  · intro i hi
    exact applyOverwriteRows_get_ge jsonData ov i hi

/-- Witness for C8 at a 3-row dataset with 2 overwrite rows. -/
theorem overwrite_rows_witness :
    convertExcelToJson [vObj [("a", vNum 1)], vObj [("a", vNum 2)], vObj [("a", vNum 3)]]
        (some [vObj [("a", vNum 9)], vObj [("a", vNum 8)]]) =
      [WResponse.conversionSuccess
        (applyOverwriteRows [vObj [("a", vNum 1)], vObj [("a", vNum 2)], vObj [("a", vNum 3)]]
          [vObj [("a", vNum 9)], vObj [("a", vNum 8)]])] ∧
    (applyOverwriteRows [vObj [("a", vNum 1)], vObj [("a", vNum 2)], vObj [("a", vNum 3)]]
        [vObj [("a", vNum 9)], vObj [("a", vNum 8)]]).length =
      [vObj [("a", vNum 1)], vObj [("a", vNum 2)], vObj [("a", vNum 3)]].length ∧
    (∀ i : Nat, i < [vObj [("a", vNum 9)], vObj [("a", vNum 8)]].length →
      (applyOverwriteRows [vObj [("a", vNum 1)], vObj [("a", vNum 2)], vObj [("a", vNum 3)]]
        [vObj [("a", vNum 9)], vObj [("a", vNum 8)]])[i]? =
      [vObj [("a", vNum 9)], vObj [("a", vNum 8)]][i]?) ∧
    (∀ i : Nat, [vObj [("a", vNum 9)], vObj [("a", vNum 8)]].length ≤ i →
      (applyOverwriteRows [vObj [("a", vNum 1)], vObj [("a", vNum 2)], vObj [("a", vNum 3)]]
        [vObj [("a", vNum 9)], vObj [("a", vNum 8)]])[i]? =
      [vObj [("a", vNum 1)], vObj [("a", vNum 2)], vObj [("a", vNum 3)]][i]?) :=
  overwrite_rows_replaces_prefix_only _ _ rfl (by simp)

end DevDesk

namespace DevDesk
open JValue

theorem foldl_jsInsert_map (f : String × JValue → JValue) (entries : List (String × JValue)) :
    ∀ acc : List (String × JValue),
    (entries.map Prod.fst).Nodup →
    (∀ k ∈ entries.map Prod.fst, k ∉ acc.map Prod.fst) →
    entries.foldl (fun a p => jsInsert a p.1 (f p)) acc =
      acc ++ entries.map (fun p => (p.1, f p)) := by
  induction entries with
  | nil => intro acc _ _; simp
  | cons p rest ih =>
    intro acc hnodup hdisj
    simp only [List.foldl_cons, List.map_cons]
    rw [List.map_cons] at hnodup
    have hn := List.nodup_cons.mp hnodup
    rw [jsInsert_of_not_mem _ _ _
      (hdisj p.1 (by rw [List.map_cons]; exact List.mem_cons_self _ _))]
    rw [ih (acc ++ [(p.1, f p)]) hn.2 ?_]
    · simp
    · intro k' hk'
      simp only [List.map_append, List.mem_append]
      push_neg
      refine ⟨hdisj k' (by rw [List.map_cons]; exact List.mem_cons_of_mem _ hk'), ?_⟩
      simp only [List.map_cons, List.map_nil, List.mem_singleton]
      intro hkk
      rw [hkk] at hk'
      exact hn.1 hk'

/-- C10: the non-flattening sanitize path preserves the number and order of
input items; an item that is not a non-null object becomes the single-field
record `{value: item}`, and within an object item every non-null object- or
array-valued field is replaced by its JSON-serialized string while scalar or
null fields pass through unchanged. -/
theorem sanitize_preserves_items :
    (∀ data : List JValue, (sanitizeForTabular data).length = data.length) ∧
    (∀ (data : List JValue) (i : Nat) (item : JValue), data[i]? = some item →
      isJsObjectLike item = false →
      (sanitizeForTabular data)[i]? = some (vObj [("value", item)])) ∧
    (∀ (data : List JValue) (i : Nat) (item : JValue), data[i]? = some item →
      isJsObjectLike item = true →
      ((jsEntries item).map Prod.fst).Nodup →
      (sanitizeForTabular data)[i]? = some (vObj ((jsEntries item).map
        (fun p => (p.1, if isJsObjectLike p.2 then vStr (jsonStringify p.2) else p.2))))) := by
  refine ⟨?_, ?_, ?_⟩
  · intro data
    simp [sanitizeForTabular]
  · intro data i item hget hscalar
    simp only [sanitizeForTabular, List.getElem?_map, hget, Option.map_some']
    congr 1
    simp only [sanitizeItem, hscalar]
    simp
  · intro data i item hget hobj hnodup
    simp only [sanitizeForTabular, List.getElem?_map, hget, Option.map_some']
    congr 1
    simp only [sanitizeItem, hobj, if_true]
    congr 1
    rw [foldl_jsInsert_map (fun p => if isJsObjectLike p.2 then vStr (jsonStringify p.2) else p.2)
      (jsEntries item) [] hnodup (by simp)]
    simp

/-- Witness for C10's non-object clause at the singleton list `[7]`. -/
theorem sanitize_preserves_items_witness :
    (sanitizeForTabular [vNum 7])[0]? = some (vObj [("value", vNum 7)]) :=
  sanitize_preserves_items.2.1 [vNum 7] 0 (vNum 7) rfl rfl

end DevDesk

namespace DevDesk
open JValue

/-- C4: after `cancelAll(reason)` every pending debounce timer has been
cleared, every pending request's future has been rejected with an error
carrying `reason`, all three tracking maps are empty, and the worker is
terminated unconditionally and released (no live context remains). -/
theorem cancelAll_teardown (st : WMState) (reason : String) :
    (cancelAll st reason).1.debounceTimers = [] ∧
    (∀ t ∈ st.debounceTimers, t.2.1 ∈ (cancelAll st reason).2.clearedTimers) ∧
    (∀ id ∈ st.errorHandlers, (id, reason) ∈ (cancelAll st reason).2.rejections) ∧
    (cancelAll st reason).2.rejections = st.errorHandlers.map (fun id => (id, reason)) ∧
    (cancelAll st reason).1.messageHandlers = [] ∧
    (cancelAll st reason).1.errorHandlers = [] ∧
    (cancelAll st reason).1.progressHandlers = [] ∧
    (cancelAll st reason).2.terminated = st.worker ∧
    (cancelAll st reason).1.worker = none := by
  refine ⟨rfl, ?_, ?_, rfl, rfl, rfl, rfl, rfl, rfl⟩
  · intro t ht
    exact List.mem_map_of_mem _ ht
  · intro id hid
    exact List.mem_map_of_mem _ hid

/-- Witness for C4 at a concrete state with one pending request and timer. -/
theorem cancelAll_teardown_witness :
    (cancelAll ⟨some 3, ["CONVERT_EXCEL-0"], ["CONVERT_EXCEL-0"], ["CONVERT_EXCEL-0"],
        [("CONVERT_EXCEL", 5, vNull)], 6⟩ "Operation cancelled").1.worker = none ∧
    ("CONVERT_EXCEL-0", "Operation cancelled") ∈
      (cancelAll ⟨some 3, ["CONVERT_EXCEL-0"], ["CONVERT_EXCEL-0"], ["CONVERT_EXCEL-0"],
        [("CONVERT_EXCEL", 5, vNull)], 6⟩ "Operation cancelled").2.rejections :=
  ⟨(cancelAll_teardown _ _).2.2.2.2.2.2.2.2,
   (cancelAll_teardown ⟨some 3, ["CONVERT_EXCEL-0"], ["CONVERT_EXCEL-0"], ["CONVERT_EXCEL-0"],
        [("CONVERT_EXCEL", 5, vNull)], 6⟩ "Operation cancelled").2.2.1
     "CONVERT_EXCEL-0" (by simp)⟩

/-- C5 counterexample: with the caller-supplied reason "Cleared by user"
(used verbatim in the repository), `cancelAll` rejects the pending future
with an error that `isCancelledError` does not classify as a cancellation,
so the classification does not hold for every reason string. -/
theorem cancelAll_unflagged_reason_counterexample :
    (cancelAll ⟨some 0, [], ["CONVERT_CSV-0"], [], [], 1⟩ "Cleared by user").2.rejections =
      [("CONVERT_CSV-0", "Cleared by user")] ∧
    isCancelledError "Cleared by user" = false :=
  ⟨rfl, rfl⟩

/-- C5 (amended): whenever the lowercased reason contains "cancel" — in
particular the default `CANCELLED_MESSAGE` and the callers' "Cancelled by
user" — every error with which `cancelAll(reason)` rejects a pending future
is classified as a cancellation by `isCancelledError`. -/
theorem cancelAll_rejections_cancelled (st : WMState) (reason : String)
    (h : jsStringIncludes (jsToLowerCase reason) "cancel" = true) :
    ∀ r ∈ (cancelAll st reason).2.rejections, isCancelledError r.2 = true := by
  intro r hr
  simp only [cancelAll] at hr
  rcases List.mem_map.mp hr with ⟨id, _, rfl⟩
  exact h

/-- Witness for the amended C5 at the default cancellation message: the one
rejection produced by `cancelAll` on a state with a single pending request is
classified as a cancellation. -/
theorem cancelAll_rejections_cancelled_witness :
    isCancelledError CANCELLED_MESSAGE = true :=
  cancelAll_rejections_cancelled ⟨some 0, [], ["PARSE_JSON-0"], [], [], 1⟩ CANCELLED_MESSAGE rfl
    ("PARSE_JSON-0", CANCELLED_MESSAGE) (List.mem_cons_self _ _)

end DevDesk

namespace DevDesk
open JValue

theorem setTimer_filter (kind : String) (t : Nat × JValue) :
    ∀ timers : List (String × Nat × JValue),
    (timers.filter (fun x => x.1 = kind) = [] ∨
      ∃ t₀, timers.filter (fun x => x.1 = kind) = [(kind, t₀)]) →
    (setTimer timers kind t).filter (fun x => x.1 = kind) = [(kind, t)] := by
  intro timers
  induction timers with
  | nil => intro _; simp [setTimer]
  | cons q rest ih =>
    intro h
    obtain ⟨k', t'⟩ := q
    by_cases hq : k' = kind
    · subst hq
      rw [show setTimer ((k', t') :: rest) k' t = (k', t) :: rest from by
        simp [setTimer]]
      have hrest : rest.filter (fun x => x.1 = k') = [] := by
        rcases h with h | ⟨t₀, h⟩
        · rw [List.filter_cons_of_pos (by simp)] at h
          exact List.noConfusion h
        · rw [List.filter_cons_of_pos (by simp)] at h
          exact (List.cons.injEq _ _ _ _ ▸ h).2
      rw [List.filter_cons_of_pos (by simp), hrest]
    · rw [show setTimer ((k', t') :: rest) kind t = (k', t') :: setTimer rest kind t from by
        simp [setTimer, hq]]
      rw [List.filter_cons_of_neg (by simpa using hq)]
      refine ih ?_
      rcases h with h | ⟨t₀, h⟩
      · rw [List.filter_cons_of_neg (by simpa using hq)] at h
        exact Or.inl h
      · rw [List.filter_cons_of_neg (by simpa using hq)] at h
        exact Or.inr ⟨t₀, h⟩

theorem submit_fold_filter (kind : String) (ps : List JValue) (hne : ps ≠ []) :
    ∀ st : WMState,
    (st.debounceTimers.filter (fun x => x.1 = kind) = [] ∨
      ∃ t₀, st.debounceTimers.filter (fun x => x.1 = kind) = [(kind, t₀)]) →
    ∃ t₁ : Nat × JValue, t₁.2 = ps.getLast hne ∧
      (ps.foldl (fun s p => submitDebounced s kind p) st).debounceTimers.filter
        (fun x => x.1 = kind) = [(kind, t₁)] := by
  induction ps with
  | nil => exact absurd rfl hne
  | cons p rest ih =>
    intro st h
    cases rest with
    | nil =>
      refine ⟨(st.nextTimerId, p), rfl, ?_⟩
      simp only [List.foldl_cons, List.foldl_nil, submitDebounced]
      exact setTimer_filter kind (st.nextTimerId, p) st.debounceTimers h
    | cons p2 rest2 =>
      have hne2 : p2 :: rest2 ≠ [] := List.cons_ne_nil _ _
      obtain ⟨t₁, ht₁, hfil⟩ := ih hne2 (submitDebounced st kind p)
        (Or.inr ⟨(st.nextTimerId, p),
          setTimer_filter kind (st.nextTimerId, p) st.debounceTimers h⟩)
      refine ⟨t₁, ?_, ?_⟩
      · rw [ht₁, List.getLast_cons hne2]
      · simpa using hfil

/-- C6: when several submissions of the same kind are made with a positive
debounce window and each arrives before the previous timer fires, exactly one
request of that kind is dispatched to the worker, and it carries the payload
of the last submission. -/
theorem debounce_collapse (kind : String) (ps : List JValue) (hne : ps ≠ []) (st : WMState)
    (hk : ∀ t ∈ st.debounceTimers, ¬ t.1 = kind) :
    (fireAllTimers (ps.foldl (fun s p => submitDebounced s kind p) st)).2.filter
      (fun d => d.1 = kind) = [(kind, ps.getLast hne)] := by
  obtain ⟨t₁, ht₁, hfil⟩ := submit_fold_filter kind ps hne st
    (Or.inl (List.filter_eq_nil_iff.mpr (by simpa using hk)))
  simp only [fireAllTimers]
  rw [List.filter_map]
  have hcomp : ((fun d : String × JValue => decide (d.1 = kind)) ∘
      (fun t : String × Nat × JValue => (t.1, t.2.2))) = fun x => decide (x.1 = kind) := by
    funext x
    rfl
  rw [hcomp, hfil]
  simp [ht₁]

/-- Witness for C6: three debounced submissions collapse to the last one. -/
theorem debounce_collapse_witness :
    (fireAllTimers ([vNum 1, vNum 2, vNum 3].foldl
        (fun s p => submitDebounced s "SEARCH_JSON" p)
        ⟨none, [], [], [], [], 0⟩)).2.filter
      (fun d => d.1 = "SEARCH_JSON") = [("SEARCH_JSON", vNum 3)] :=
  debounce_collapse "SEARCH_JSON" [vNum 1, vNum 2, vNum 3] (List.cons_ne_nil _ _)
    ⟨none, [], [], [], [], 0⟩ (by simp)

end DevDesk
